import Mathlib

/-!
Verification of the EustressEngine character-rig pipeline
(`merge_animations.py`, `clean_ybot.py`, `convert_fbx_to_glb.py`)
against its natural-language specification.

The Python scripts are shallowly embedded: the bone-name correspondence
table is a literal association list, the Blender scene operations become
pure functions on explicit scene records, and the batch driver becomes a
map over a job list.
-/

namespace Eustress

/-- `BONE_NAME_MAP` from `convert_fbx_to_glb.py` (lines 27–93): the
correspondence from Mixamo-standard bone names to Y-Bot canonical names. -/
def BONE_NAME_MAP : List (String × String) := [
  ("mixamorig:Hips", "mixamorig:Hips_01"),
  ("mixamorig:Spine", "mixamorig:Spine_02"),
  ("mixamorig:Spine1", "mixamorig:Spine1_03"),
  ("mixamorig:Spine2", "mixamorig:Spine2_04"),
  ("mixamorig:Neck", "mixamorig:Neck_05"),
  ("mixamorig:Head", "mixamorig:Head_06"),
  ("mixamorig:HeadTop_End", "mixamorig:HeadTop_End_07"),
  ("mixamorig:LeftShoulder", "mixamorig:LeftShoulder_08"),
  ("mixamorig:LeftArm", "mixamorig:LeftArm_09"),
  ("mixamorig:LeftForeArm", "mixamorig:LeftForeArm_010"),
  ("mixamorig:LeftHand", "mixamorig:LeftHand_011"),
  ("mixamorig:LeftHandThumb1", "mixamorig:LeftHandThumb1_012"),
  ("mixamorig:LeftHandThumb2", "mixamorig:LeftHandThumb2_013"),
  ("mixamorig:LeftHandThumb3", "mixamorig:LeftHandThumb3_014"),
  ("mixamorig:LeftHandThumb4", "mixamorig:LeftHandThumb4_015"),
  ("mixamorig:LeftHandIndex1", "mixamorig:LeftHandIndex1_016"),
  ("mixamorig:LeftHandIndex2", "mixamorig:LeftHandIndex2_017"),
  ("mixamorig:LeftHandIndex3", "mixamorig:LeftHandIndex3_018"),
  ("mixamorig:LeftHandIndex4", "mixamorig:LeftHandIndex4_019"),
  ("mixamorig:LeftHandMiddle1", "mixamorig:LeftHandMiddle1_020"),
  ("mixamorig:LeftHandMiddle2", "mixamorig:LeftHandMiddle2_021"),
  ("mixamorig:LeftHandMiddle3", "mixamorig:LeftHandMiddle3_022"),
  ("mixamorig:LeftHandMiddle4", "mixamorig:LeftHandMiddle4_023"),
  ("mixamorig:LeftHandRing1", "mixamorig:LeftHandRing1_024"),
  ("mixamorig:LeftHandRing2", "mixamorig:LeftHandRing2_025"),
  ("mixamorig:LeftHandRing3", "mixamorig:LeftHandRing3_026"),
  ("mixamorig:LeftHandRing4", "mixamorig:LeftHandRing4_027"),
  ("mixamorig:LeftHandPinky1", "mixamorig:LeftHandPinky1_028"),
  ("mixamorig:LeftHandPinky2", "mixamorig:LeftHandPinky2_029"),
  ("mixamorig:LeftHandPinky3", "mixamorig:LeftHandPinky3_030"),
  ("mixamorig:LeftHandPinky4", "mixamorig:LeftHandPinky4_031"),
  ("mixamorig:RightShoulder", "mixamorig:RightShoulder_032"),
  ("mixamorig:RightArm", "mixamorig:RightArm_033"),
  ("mixamorig:RightForeArm", "mixamorig:RightForeArm_034"),
  ("mixamorig:RightHand", "mixamorig:RightHand_035"),
  ("mixamorig:RightHandThumb1", "mixamorig:RightHandThumb1_036"),
  ("mixamorig:RightHandThumb2", "mixamorig:RightHandThumb2_037"),
  ("mixamorig:RightHandThumb3", "mixamorig:RightHandThumb3_038"),
  ("mixamorig:RightHandThumb4", "mixamorig:RightHandThumb4_039"),
  ("mixamorig:RightHandIndex1", "mixamorig:RightHandIndex1_040"),
  ("mixamorig:RightHandIndex2", "mixamorig:RightHandIndex2_041"),
  ("mixamorig:RightHandIndex3", "mixamorig:RightHandIndex3_042"),
  ("mixamorig:RightHandIndex4", "mixamorig:RightHandIndex4_043"),
  ("mixamorig:RightHandMiddle1", "mixamorig:RightHandMiddle1_044"),
  ("mixamorig:RightHandMiddle2", "mixamorig:RightHandMiddle2_045"),
  ("mixamorig:RightHandMiddle3", "mixamorig:RightHandMiddle3_046"),
  ("mixamorig:RightHandMiddle4", "mixamorig:RightHandMiddle4_047"),
  ("mixamorig:RightHandRing1", "mixamorig:RightHandRing1_048"),
  ("mixamorig:RightHandRing2", "mixamorig:RightHandRing2_049"),
  ("mixamorig:RightHandRing3", "mixamorig:RightHandRing3_050"),
  ("mixamorig:RightHandRing4", "mixamorig:RightHandRing4_051"),
  ("mixamorig:RightHandPinky1", "mixamorig:RightHandPinky1_052"),
  ("mixamorig:RightHandPinky2", "mixamorig:RightHandPinky2_053"),
  ("mixamorig:RightHandPinky3", "mixamorig:RightHandPinky3_054"),
  ("mixamorig:RightHandPinky4", "mixamorig:RightHandPinky4_055"),
  ("mixamorig:LeftUpLeg", "mixamorig:LeftUpLeg_056"),
  ("mixamorig:LeftLeg", "mixamorig:LeftLeg_057"),
  ("mixamorig:LeftFoot", "mixamorig:LeftFoot_058"),
  ("mixamorig:LeftToeBase", "mixamorig:LeftToeBase_059"),
  ("mixamorig:LeftToe_End", "mixamorig:LeftToe_End_060"),
  ("mixamorig:RightUpLeg", "mixamorig:RightUpLeg_061"),
  ("mixamorig:RightLeg", "mixamorig:RightLeg_062"),
  ("mixamorig:RightFoot", "mixamorig:RightFoot_063"),
  ("mixamorig:RightToeBase", "mixamorig:RightToeBase_064"),
  ("mixamorig:RightToe_End", "mixamorig:RightToe_End_065")]

/-- The name-correspondence translation of spec §4.1, as implemented by the
loop body of `rename_bones_to_ybot_format` (lines 105–109):
`BONE_NAME_MAP[name]` when `name in BONE_NAME_MAP`, otherwise the name
unchanged. -/
def translate (n : String) : String :=
  (BONE_NAME_MAP.lookup n).getD n

/-- The source-name column of the table. -/
def map_keys : List String := BONE_NAME_MAP.map Prod.fst

/-- The canonical-name column of the table. -/
def map_values : List String := BONE_NAME_MAP.map Prod.snd

/-- Numeric fingerprint of a string; used only so that the distinctness of
the table's 130 names is a cheap kernel computation
(`Nodup (map fp l) → Nodup l` requires no injectivity of `fp`). -/
def fp (s : String) : Nat :=
  s.data.foldl (fun h c => h * 1114112 + c.toNat) 0

set_option maxRecDepth 10000 in
theorem allNames_fp_nodup : ((map_keys ++ map_values).map fp).Nodup := by
  decide

theorem allNames_nodup : (map_keys ++ map_values).Nodup :=
  List.Nodup.of_map fp allNames_fp_nodup

theorem keys_nodup : map_keys.Nodup :=
  (List.nodup_append.mp allNames_nodup).1

theorem values_nodup : map_values.Nodup :=
  (List.nodup_append.mp allNames_nodup).2.1

theorem keys_values_disjoint : map_keys.Disjoint map_values :=
  (List.nodup_append.mp allNames_nodup).2.2

theorem lookup_eq_none_of_not_mem_keys {k : String} :
    ∀ {l : List (String × String)}, k ∉ l.map Prod.fst → l.lookup k = none := by
  intro l
  induction l with
  | nil => intro _; rfl
  | cons p t ih =>
    intro h
    obtain ⟨a, b⟩ := p
    simp only [List.map_cons, List.mem_cons, not_or] at h
    have hba : (k == a) = false := beq_eq_false_iff_ne.mpr h.1
    simp [List.lookup, hba, ih h.2]

theorem mem_of_lookup_eq_some {k v : String} :
    ∀ {l : List (String × String)}, l.lookup k = some v → (k, v) ∈ l := by
  intro l
  induction l with
  | nil => intro h; cases h
  | cons p t ih =>
    intro h
    obtain ⟨a, b⟩ := p
    by_cases hk : k = a
    · subst hk
      rw [List.lookup_cons, beq_self_eq_true] at h
      simp only [Option.some.injEq] at h
      simp [h]
    · have hba : (k == a) = false := beq_eq_false_iff_ne.mpr hk
      rw [List.lookup_cons, hba] at h
      exact List.mem_cons_of_mem _ (ih h)

theorem lookup_value_eq_none {v : String} (hv : v ∈ map_values) :
    BONE_NAME_MAP.lookup v = none :=
  lookup_eq_none_of_not_mem_keys fun hk => keys_values_disjoint hk hv

theorem translate_translate (y : String) : translate (translate y) = translate y := by
  cases h : BONE_NAME_MAP.lookup y with
  | none => simp [translate, h]
  | some v =>
    have hvmem : v ∈ map_values := by
      have := List.mem_map_of_mem Prod.snd (mem_of_lookup_eq_some h)
      simpa [map_values] using this
    simp [translate, h, lookup_value_eq_none hvmem]

/-! ## Blender bone renaming

Assigning `EditBone.name` (convert_fbx_to_glb.py line 108) goes through
Blender's `ED_armature_bone_rename`: the requested name is made unique
against the other bones' names by `unique_editbone_name` (a ".001"-style
numbered suffix is appended on collision), and the rename is propagated to
the vertex groups of every mesh deformed by the armature.  Both behaviours
are part of the semantics of the statement the script executes, so the
embedding models them. -/

/-- Little-endian decimal digits with explicit fuel, so that the function
is structurally recursive and kernel-computable. -/
def digitsAux : Nat → Nat → List Nat
  | _, 0 => []
  | n, fuel + 1 => if n = 0 then [] else n % 10 :: digitsAux (n / 10) fuel

/-- Little-endian decimal digits of `n`. -/
def decDigits (n : Nat) : List Nat := digitsAux n n

/-- Value of a little-endian digit list. -/
def ofDigitsLE (ds : List Nat) : Nat := ds.foldr (fun d acc => 10 * acc + d) 0

theorem ofDigitsLE_digitsAux : ∀ (fuel n : Nat), n ≤ fuel →
    ofDigitsLE (digitsAux n fuel) = n := by
  intro fuel
  induction fuel with
  | zero => intro n h; interval_cases n; rfl
  | succ fuel ih =>
    intro n h
    by_cases h0 : n = 0
    · subst h0; simp [digitsAux, ofDigitsLE]
    · have hdiv : n / 10 ≤ fuel := by omega
      simp only [digitsAux, if_neg h0, ofDigitsLE, List.foldr_cons]
      have hrec := ih (n / 10) hdiv
      rw [ofDigitsLE] at hrec
      rw [hrec]
      omega

theorem digitsAux_lt : ∀ (fuel n : Nat), ∀ d ∈ digitsAux n fuel, d < 10 := by
  intro fuel
  induction fuel with
  | zero => intro n d hd; simp [digitsAux] at hd
  | succ fuel ih =>
    intro n d hd
    by_cases h0 : n = 0
    · subst h0; simp [digitsAux] at hd
    · simp only [digitsAux, if_neg h0, List.mem_cons] at hd
      rcases hd with h | h
      · subst h; omega
      · exact ih _ d h

/-- Blender's zero-padded numeric suffix body: at least three digits
("001", "012", "123", and "1000" past 999). -/
def pad3 (k : Nat) : List Char :=
  List.replicate (3 - (decDigits k).length) '0' ++ (decDigits k).reverse.map Nat.digitChar

/-- Decimal parser; leading zeros are harmless, which is what makes it a
retraction of `pad3`. -/
def parseDec (cs : List Char) : Nat :=
  cs.foldl (fun acc c => 10 * acc + (c.toNat - 48)) 0

theorem parse_zeros : ∀ z : Nat,
    List.foldl (fun acc c => 10 * acc + (c.toNat - 48)) 0 (List.replicate z '0') = 0 := by
  intro z
  induction z with
  | zero => rfl
  | succ z ih =>
    have h0 : (fun acc c => 10 * acc + (c.toNat - 48)) 0 '0' = 0 := by decide
    simp only [List.replicate_succ, List.foldl_cons, h0]
    exact ih

theorem digitChar_recover : ∀ d < 10, (Nat.digitChar d).toNat - 48 = d := by decide

theorem parse_digits (ds : List Nat) (hds : ∀ d ∈ ds, d < 10) :
    List.foldl (fun acc c => 10 * acc + (c.toNat - 48)) 0 (ds.reverse.map Nat.digitChar)
      = ofDigitsLE ds := by
  rw [List.map_reverse, List.foldl_reverse, List.foldr_map, ofDigitsLE]
  induction ds with
  | nil => rfl
  | cons d ds ih =>
    simp only [List.foldr_cons]
    rw [ih fun g hg => hds g (List.mem_cons_of_mem d hg),
      digitChar_recover d (hds d (List.mem_cons_self d ds))]

theorem parseDec_pad3 (k : Nat) : parseDec (pad3 k) = k := by
  rw [parseDec, pad3, List.foldl_append, parse_zeros,
    parse_digits (decDigits k) (digitsAux_lt k k)]
  exact ofDigitsLE_digitsAux k k le_rfl

theorem pad3_injective {a b : Nat} (h : pad3 a = pad3 b) : a = b := by
  have := congrArg parseDec h
  rwa [parseDec_pad3, parseDec_pad3] at this

/-- A numbered name variant: `base.001`, `base.002`, … -/
def bsuffix (base : String) (k : Nat) : String :=
  base ++ String.mk ('.' :: pad3 k)

theorem bsuffix_data (base : String) (k : Nat) :
    (bsuffix base k).data = base.data ++ '.' :: pad3 k := rfl

theorem bsuffix_injective {base : String} {a b : Nat}
    (h : bsuffix base a = bsuffix base b) : a = b := by
  have hd := congrArg String.data h
  rw [bsuffix_data, bsuffix_data] at hd
  have h1 := List.append_cancel_left hd
  injection h1 with h2 h3
  exact pad3_injective h3

theorem dot_mem_bsuffix (base : String) (k : Nat) : '.' ∈ (bsuffix base k).data := by
  rw [bsuffix_data]
  exact List.mem_append_right _ (List.mem_cons_self _ _)

set_option maxRecDepth 4000 in
theorem keys_no_dot : ∀ k ∈ map_keys, ('.' : Char) ∉ k.data := by decide

/-- Modelled from Blender's `unique_editbone_name` (run by the
`EditBone.name` setter): the requested name is used as-is when no other
bone carries it; otherwise the numbered variants `name.001`, `name.002`, …
are tried in order and the first free one is chosen. -/
def uniquify (taken : List String) (base : String) : String :=
  if base ∈ taken then
    match ((List.range (taken.length + 1)).map fun i => bsuffix base (i + 1)).find?
        (fun c => !(decide (c ∈ taken))) with
    | some c => c
    | none => bsuffix base (taken.length + 1)
  else base

theorem uniquify_not_mem (taken : List String) (base : String) :
    uniquify taken base ∉ taken := by
  rw [uniquify]
  by_cases hb : base ∈ taken
  · rw [if_pos hb]
    split
    · next c hfind =>
      have hc := List.find?_some hfind
      simpa using hc
    · next hfind =>
      exfalso
      have hall := List.find?_eq_none.mp hfind
      have hsub : ((List.range (taken.length + 1)).map fun i => bsuffix base (i + 1)) ⊆
          taken := by
        intro c hc
        have := hall c hc
        simpa using this
      have hnodup : ((List.range (taken.length + 1)).map fun i => bsuffix base (i + 1)).Nodup := by
        refine List.Nodup.map_on ?_ (List.nodup_range _)
        intro x _ y _ hxy
        have := bsuffix_injective hxy
        omega
      have hle := (List.subperm_of_subset hnodup hsub).length_le
      simp only [List.length_map, List.length_range] at hle
      omega
  · rw [if_neg hb]; exact hb

theorem uniquify_not_key (taken : List String) {base : String}
    (hbase : base ∉ map_keys) : uniquify taken base ∉ map_keys := by
  rw [uniquify]
  by_cases hb : base ∈ taken
  · rw [if_pos hb]
    split
    · next c hfind =>
      obtain ⟨i, _, hceq⟩ := List.mem_map.mp (List.mem_of_find?_eq_some hfind)
      intro hk
      exact keys_no_dot _ hk (hceq ▸ dot_mem_bsuffix base (i + 1))
    · next _ =>
      intro hk
      exact keys_no_dot _ hk (dot_mem_bsuffix base _)
  · rw [if_neg hb]; exact hbase

theorem lookup_eq_some_of_mem_keys {k : String} :
    ∀ {l : List (String × String)}, k ∈ l.map Prod.fst → ∃ v, l.lookup k = some v := by
  intro l
  induction l with
  | nil => intro h; simp at h
  | cons p t ih =>
    intro h
    obtain ⟨a, b⟩ := p
    by_cases hk : k = a
    · subst hk
      exact ⟨b, by rw [List.lookup_cons, beq_self_eq_true]⟩
    · have hba : (k == a) = false := beq_eq_false_iff_ne.mpr hk
      simp only [List.map_cons, List.mem_cons, hk, false_or] at h
      obtain ⟨v, hv⟩ := ih h
      exact ⟨v, by rw [List.lookup_cons, hba]; exact hv⟩

theorem translate_mem_values {n : String} (hn : n ∈ map_keys) :
    translate n ∈ map_values := by
  obtain ⟨v, hv⟩ := lookup_eq_some_of_mem_keys (show n ∈ BONE_NAME_MAP.map Prod.fst from hn)
  have hmem := List.mem_map_of_mem Prod.snd (mem_of_lookup_eq_some hv)
  simp only [translate, hv, Option.getD_some]
  simpa [map_values] using hmem

theorem translate_not_key {n : String} (hn : n ∈ map_keys) : translate n ∉ map_keys :=
  fun hk => keys_values_disjoint hk (translate_mem_values hn)

/-- The bone-rename loop of `rename_bones_to_ybot_format`
(lines 104–109), processed in `edit_bones` order: a bone whose name is a
table key is assigned the canonical name through the `EditBone.name`
setter, which uniquifies the requested name against all the other bones'
current names; other bones are untouched.  `prev` holds the
already-processed bones' current names. -/
def rename_bones_go : List String → List String → List String
  | _, [] => []
  | prev, n :: rest =>
    if n ∈ map_keys then
      let n2 := uniquify (prev ++ rest) (translate n)
      n2 :: rename_bones_go (prev ++ [n2]) rest
    else
      n :: rename_bones_go (prev ++ [n]) rest

/-- The per-armature bone rename pass (`rename_bones_to_ybot_format`,
lines 95–112) acting on the armature's bone-name list. -/
def rename_bones_to_ybot_format (bones : List String) : List String :=
  rename_bones_go [] bones

theorem rename_bones_go_output_not_key : ∀ (rest prev : List String),
    ∀ m ∈ rename_bones_go prev rest, m ∉ map_keys := by
  intro rest
  induction rest with
  | nil => intro prev m hm; simp [rename_bones_go] at hm
  | cons n rest ih =>
    intro prev m hm
    by_cases hn : n ∈ map_keys
    · simp only [rename_bones_go, if_pos hn, List.mem_cons] at hm
      rcases hm with h | h
      · subst h; exact uniquify_not_key _ (translate_not_key hn)
      · exact ih _ m h
    · simp only [rename_bones_go, if_neg hn, List.mem_cons] at hm
      rcases hm with h | h
      · subst h; exact hn
      · exact ih _ m h

theorem rename_bones_go_id : ∀ (rest prev : List String),
    (∀ n ∈ rest, n ∉ map_keys) → rename_bones_go prev rest = rest := by
  intro rest
  induction rest with
  | nil => intro prev _; rfl
  | cons n rest ih =>
    intro prev h
    simp only [rename_bones_go, if_neg (h n (List.mem_cons_self n rest))]
    exact congrArg _ (ih _ fun g hg => h g (List.mem_cons_of_mem n hg))

/-- C3: the name-correspondence translation is idempotent
(`translate (translate x) = translate x` for every name `x`), and applying
the bone-rename pass of `rename_bones_to_ybot_format` a second time to an
already-renamed bone list changes no bone name. -/
theorem C3_translate_idempotent (x : String) (bones : List String) :
    translate (translate x) = translate x ∧
    rename_bones_to_ybot_format (rename_bones_to_ybot_format bones) =
      rename_bones_to_ybot_format bones := by
  refine ⟨translate_translate x, ?_⟩
  rw [rename_bones_to_ybot_format, rename_bones_to_ybot_format]
  exact rename_bones_go_id _ [] (rename_bones_go_output_not_key bones [])

/-- C4: for every name absent from `BONE_NAME_MAP`, `translate` returns the
input unchanged (identity default); `translate` is a total function by
construction, so it never fails. -/
theorem C4_translate_identity_default (n : String) (h : n ∉ map_keys) :
    translate n = n := by
  simp [translate, lookup_eq_none_of_not_mem_keys (show n ∉ BONE_NAME_MAP.map Prod.fst from h)]

/-- Witness for C4 at the non-key name "Hips". -/
theorem C4_witness : "Hips" ∉ map_keys ∧ translate "Hips" = "Hips" :=
  ⟨by decide, C4_translate_identity_default "Hips" (by decide)⟩

theorem rename_bones_go_nodup : ∀ (rest prev : List String),
    (prev ++ rest).Nodup → (prev ++ rename_bones_go prev rest).Nodup := by
  intro rest
  induction rest with
  | nil => intro prev h; simpa using (by simpa using h : (prev ++ []).Nodup)
  | cons n rest ih =>
    intro prev h
    have hmid := List.nodup_cons.mp (List.nodup_middle.mp h)
    by_cases hn : n ∈ map_keys
    · simp only [rename_bones_go, if_pos hn]
      have hfresh := uniquify_not_mem (prev ++ rest) (translate n)
      have hnext : ((prev ++ [uniquify (prev ++ rest) (translate n)]) ++ rest).Nodup := by
        rw [List.append_assoc, List.singleton_append]
        exact List.nodup_middle.mpr (List.nodup_cons.mpr ⟨hfresh, hmid.2⟩)
      have := ih (prev ++ [uniquify (prev ++ rest) (translate n)]) hnext
      rwa [List.append_assoc, List.singleton_append] at this
    · simp only [rename_bones_go, if_neg hn]
      have hnext : ((prev ++ [n]) ++ rest).Nodup := by
        rw [List.append_assoc, List.singleton_append]
        exact h
      have := ih (prev ++ [n]) hnext
      rwa [List.append_assoc, List.singleton_append] at this

/-- C10: the correspondence table is injective (both columns
duplicate-free) and no canonical (output) name is also a source key; and
the rename pass preserves per-skeleton name uniqueness: each rename goes
through the uniquifying `EditBone.name` setter, so pairwise-distinct bone
names stay pairwise distinct — even for a skeleton that already contains a
canonical name (the colliding rename gets a ".001" suffix). -/
theorem C10_unique_names_preserved (bones : List String) (hnd : bones.Nodup) :
    map_keys.Nodup ∧ map_values.Nodup ∧ (∀ v ∈ map_values, v ∉ map_keys) ∧
    (rename_bones_to_ybot_format bones).Nodup := by
  refine ⟨keys_nodup, values_nodup, fun v hv hk => keys_values_disjoint hk hv, ?_⟩
  have := rename_bones_go_nodup bones [] (by simpa using hnd)
  simpa [rename_bones_to_ybot_format] using this

/-- The collision case traced concretely: a skeleton already containing
the canonical name "mixamorig:Hips_01" keeps distinct names — the rename
of "mixamorig:Hips" is uniquified to "mixamorig:Hips_01.001". -/
theorem rename_collision_example :
    rename_bones_to_ybot_format ["mixamorig:Hips", "mixamorig:Hips_01"] =
      ["mixamorig:Hips_01.001", "mixamorig:Hips_01"] := by decide

/-- Witness for C10 at the key/value-colliding skeleton. -/
theorem C10_witness :
    (["mixamorig:Hips", "mixamorig:Hips_01"] : List String).Nodup ∧
    (map_keys.Nodup ∧ map_values.Nodup ∧ (∀ v ∈ map_values, v ∉ map_keys) ∧
      (rename_bones_to_ybot_format ["mixamorig:Hips", "mixamorig:Hips_01"]).Nodup) :=
  ⟨by decide, C10_unique_names_preserved _ (by decide)⟩

/-! ## Hierarchy Normalizer (`clean_ybot.py`)

Blender edit bones store their rest data (`head`, `tail`, `roll`) in
armature space, so changing a bone's parent pointer in edit mode does not
move the bone; an object's world matrix is its parent's world matrix
composed with its own local matrix.  Transforms are modelled as affine maps
over ℚ. -/

/-- A 3-vector of rationals. -/
abbrev Vec3 : Type := ℚ × ℚ × ℚ

/-- An affine transform: three linear rows plus a translation. -/
structure Affine where
  r1 : Vec3
  r2 : Vec3
  r3 : Vec3
  t : Vec3
deriving DecidableEq

/-- Dot product of two 3-vectors. -/
def dot (a b : Vec3) : ℚ :=
  a.1 * b.1 + a.2.1 * b.2.1 + a.2.2 * b.2.2

/-- Apply an affine transform to a point. -/
def applyAffine (m : Affine) (v : Vec3) : Vec3 :=
  (dot m.r1 v + m.t.1, dot m.r2 v + m.t.2.1, dot m.r3 v + m.t.2.2)

/-- i-th column of the linear part of an affine transform. -/
def col1 (m : Affine) : Vec3 := (m.r1.1, m.r2.1, m.r3.1)

def col2 (m : Affine) : Vec3 := (m.r1.2.1, m.r2.2.1, m.r3.2.1)

def col3 (m : Affine) : Vec3 := (m.r1.2.2, m.r2.2.2, m.r3.2.2)

/-- Composition of affine transforms: `compAffine m n` applies `n` first. -/
def compAffine (m n : Affine) : Affine where
  r1 := (dot m.r1 (col1 n), dot m.r1 (col2 n), dot m.r1 (col3 n))
  r2 := (dot m.r2 (col1 n), dot m.r2 (col2 n), dot m.r2 (col3 n))
  r3 := (dot m.r3 (col1 n), dot m.r3 (col2 n), dot m.r3 (col3 n))
  t := applyAffine m n.t

/-- One Blender edit bone: name, parent bone (by name — bone names are
unique within an armature), and rest data in armature space. -/
structure EditBone where
  name : String
  parent : Option String
  head : Vec3
  tail : Vec3
  roll : ℚ
deriving DecidableEq

/-- The armature object: object name, underlying data name, the world
matrix of its external parent object (if parented), its own local matrix,
and its edit bones. -/
structure ArmatureObject where
  name : String
  data_name : String
  parentWorld : Option Affine
  matrix_local : Affine
  edit_bones : List EditBone
deriving DecidableEq

/-- `armature.matrix_world`: parent's world matrix composed with the local
matrix, or the local matrix alone when the object has no parent. -/
def matrix_world (a : ArmatureObject) : Affine :=
  match a.parentWorld with
  | some p => compAffine p a.matrix_local
  | none => a.matrix_local

/-- World-space position of a bone's head. -/
def worldHead (a : ArmatureObject) (b : EditBone) : Vec3 :=
  applyAffine (matrix_world a) b.head

/-- World-space position of a bone's tail. -/
def worldTail (a : ArmatureObject) (b : EditBone) : Vec3 :=
  applyAffine (matrix_world a) b.tail

/-- `clean_ybot.py` lines 57–58: a direct child of "_rootJoint" is
reparented to root level (parent `None`); other bones are untouched. -/
def reparent_sentinel_child (b : EditBone) : EditBone :=
  if b.parent == some "_rootJoint" then { b with parent := none } else b

/-- `clean_ybot.py` lines 52–62: if a bone named "_rootJoint" exists,
reparent each of its direct children to root level and remove the
"_rootJoint" bone; otherwise leave the bones unchanged. -/
def remove_root_joint (bones : List EditBone) : List EditBone :=
  if bones.any (fun b => b.name == "_rootJoint") then
    (bones.map reparent_sentinel_child).eraseP (fun b => b.name == "_rootJoint")
  else bones

/-- `clean_ybot.py` lines 67–71: if the armature has a parent, store its
world matrix, clear the parent, and re-apply the stored world matrix
(with no parent, assigning `matrix_world` sets `matrix_local` to it). -/
def unparent_armature (a : ArmatureObject) : ArmatureObject :=
  match a.parentWorld with
  | some p => { a with parentWorld := none, matrix_local := compAffine p a.matrix_local }
  | none => a

/-- The normalization performed by `clean_ybot.py` on the armature: rename
to "Armature" (lines 42–44), remove the synthetic "_rootJoint" wrapper
(lines 52–62), then unparent from any external hierarchy (lines 67–71). -/
def clean_ybot (a : ArmatureObject) : ArmatureObject :=
  unparent_armature
    { a with
      name := "Armature"
      data_name := "Armature"
      edit_bones := remove_root_joint a.edit_bones }

/-- Root-level bones of a bone list (those with no parent). -/
def root_bones (bones : List EditBone) : List EditBone :=
  bones.filter fun b => b.parent == none

theorem reparent_preserves_fields (b : EditBone) :
    (reparent_sentinel_child b).name = b.name ∧
    (reparent_sentinel_child b).head = b.head ∧
    (reparent_sentinel_child b).tail = b.tail := by
  cases h : (b.parent == some "_rootJoint") <;> simp [reparent_sentinel_child, h]

theorem countP_or_disjoint {α : Type} (q r : α → Bool)
    (h : ∀ b, ¬(q b = true ∧ r b = true)) (l : List α) :
    l.countP (fun b => q b || r b) = l.countP q + l.countP r := by
  induction l with
  | nil => simp
  | cons x xs ih =>
    cases hq : q x <;> cases hr : r x <;>
      simp [List.countP_cons, hq, hr, ih] <;> first
      | omega
      | exact absurd ⟨hq, hr⟩ (h x)

theorem mem_remove_root_joint {bs : List EditBone} {b2 : EditBone}
    (h : b2 ∈ remove_root_joint bs) :
    ∃ b ∈ bs, b2.name = b.name ∧ b2.head = b.head ∧ b2.tail = b.tail := by
  rw [remove_root_joint] at h
  by_cases hany : bs.any (fun b => b.name == "_rootJoint")
  · rw [if_pos hany] at h
    obtain ⟨b, hb, hfb⟩ := List.mem_map.mp (List.mem_of_mem_eraseP h)
    obtain ⟨hn, hh, ht⟩ := reparent_preserves_fields b
    exact ⟨b, hb, by rw [← hfb]; exact hn, by rw [← hfb]; exact hh, by rw [← hfb]; exact ht⟩
  · rw [if_neg hany] at h
    exact ⟨b2, h, rfl, rfl, rfl⟩

theorem clean_ybot_edit_bones (a : ArmatureObject) :
    (clean_ybot a).edit_bones = remove_root_joint a.edit_bones := by
  cases h : a.parentWorld <;> simp [clean_ybot, unparent_armature, h]

theorem clean_ybot_parentWorld (a : ArmatureObject) :
    (clean_ybot a).parentWorld = none := by
  cases h : a.parentWorld <;> simp [clean_ybot, unparent_armature, h]

theorem matrix_world_clean_ybot (a : ArmatureObject) :
    matrix_world (clean_ybot a) = matrix_world a := by
  cases h : a.parentWorld <;> simp [clean_ybot, unparent_armature, matrix_world, h]

theorem remove_root_joint_spec (bs : List EditBone)
    (hnd : (bs.map EditBone.name).Nodup)
    (hroot : (root_bones bs).map EditBone.name = ["_rootJoint"])
    (hchild : (bs.filter fun b => b.parent == some "_rootJoint").length = 1) :
    (root_bones (remove_root_joint bs)).length = 1 ∧
    ∀ b ∈ remove_root_joint bs, b.name ≠ "_rootJoint" := by
  -- extract the unique sentinel root bone
  obtain ⟨rj, hrjeq, hrjname⟩ : ∃ rj, root_bones bs = [rj] ∧ rj.name = "_rootJoint" := by
    cases h : root_bones bs with
    | nil => rw [h] at hroot; cases hroot
    | cons x xs =>
      cases xs with
      | nil =>
        rw [h] at hroot
        simp only [List.map_cons, List.map_nil, List.cons.injEq, and_true] at hroot
        exact ⟨x, rfl, hroot⟩
      | cons y ys => rw [h] at hroot; simp at hroot
  have hrjroot : rj ∈ root_bones bs := hrjeq ▸ List.mem_singleton_self rj
  have hrjmem : rj ∈ bs := (List.mem_filter.mp hrjroot).1
  have hrjparent : rj.parent = none := by
    have := (List.mem_filter.mp hrjroot).2
    exact eq_of_beq this
  have hany : bs.any (fun b => b.name == "_rootJoint") = true :=
    List.any_eq_true.mpr ⟨rj, hrjmem, by simp [hrjname]⟩
  have hrw : remove_root_joint bs =
      (bs.map reparent_sentinel_child).eraseP (fun b => b.name == "_rootJoint") := by
    rw [remove_root_joint, if_pos hany]
  -- the sentinel bone survives `map` with its name intact, so `eraseP` splits the list
  have hFrjname : (reparent_sentinel_child rj).name = rj.name := (reparent_preserves_fields rj).1
  obtain ⟨x, l1, l2, hl1, hpx, hMeq, hErase⟩ :=
    List.exists_of_eraseP (p := fun b => b.name == "_rootJoint")
      (List.mem_map_of_mem reparent_sentinel_child hrjmem)
      (by simp only [hFrjname, hrjname, beq_self_eq_true])
  have hxname : x.name = "_rootJoint" := eq_of_beq hpx
  -- names are preserved by the reparenting map
  have hnamesM : (bs.map reparent_sentinel_child).map EditBone.name = bs.map EditBone.name := by
    rw [List.map_map]
    exact List.map_congr_left fun b _ => (reparent_preserves_fields b).1
  have hndM : ((bs.map reparent_sentinel_child).map EditBone.name).Nodup := by
    rw [hnamesM]; exact hnd
  -- identify x with the image of rj
  have hxM : x ∈ bs.map reparent_sentinel_child := by
    rw [hMeq]; exact List.mem_append_right _ (List.mem_cons_self x l2)
  obtain ⟨b0, hb0, hxF⟩ := List.mem_map.mp hxM
  have hb0name : b0.name = "_rootJoint" := by
    rw [← (reparent_preserves_fields b0).1, hxF, hxname]
  have hb0rj : b0 = rj :=
    List.inj_on_of_nodup_map hnd hb0 hrjmem (by rw [hb0name, hrjname])
  have hFrj : reparent_sentinel_child rj = rj := by
    simp [reparent_sentinel_child, hrjparent]
  have hxrj : x = rj := by rw [← hxF, hb0rj, hFrj]
  have hxroot : (fun b : EditBone => b.parent == (none : Option String)) x = true := by
    show (x.parent == (none : Option String)) = true
    rw [hxrj, hrjparent]; rfl
  constructor
  · -- root-bone count: two roots before the erase (old root + one child), one after
    have hsplit : ∀ b : EditBone,
        ((reparent_sentinel_child b).parent == (none : Option String)) =
          ((b.parent == (none : Option String)) || (b.parent == some "_rootJoint")) := by
      intro b
      cases h : (b.parent == some "_rootJoint") <;> simp [reparent_sentinel_child, h]
    have hdisj : ∀ b : EditBone,
        ¬((b.parent == (none : Option String)) = true ∧ (b.parent == some "_rootJoint") = true) := by
      intro b ⟨h1, h2⟩
      rw [eq_of_beq h1] at h2
      exact absurd (eq_of_beq h2) (by simp)
    have hcountM : (bs.map reparent_sentinel_child).countP
        (fun b => b.parent == (none : Option String)) = 2 := by
      rw [List.countP_map]
      calc bs.countP ((fun b => b.parent == (none : Option String)) ∘ reparent_sentinel_child)
          = bs.countP
            (fun b => (b.parent == (none : Option String)) || (b.parent == some "_rootJoint")) := by
            exact List.countP_congr fun b _ => by
              simp only [Function.comp_apply]; rw [hsplit b]
        _ = bs.countP (fun b => b.parent == (none : Option String)) +
              bs.countP (fun b => b.parent == some "_rootJoint") :=
            countP_or_disjoint _ _ hdisj bs
        _ = 2 := by
            have h1 : bs.countP (fun b => b.parent == (none : Option String)) = 1 := by
              rw [List.countP_eq_length_filter]
              have : bs.filter (fun b => b.parent == (none : Option String)) = [rj] := hrjeq
              rw [this]; rfl
            have h2 : bs.countP (fun b => b.parent == some "_rootJoint") = 1 := by
              rw [List.countP_eq_length_filter]; exact hchild
            omega
    have hcount2 : (l1 ++ x :: l2).countP (fun b => b.parent == (none : Option String)) = 2 := by
      rw [← hMeq]; exact hcountM
    rw [List.countP_append,
      List.countP_cons_of_pos (p := fun b : EditBone => b.parent == (none : Option String))
        l2 hxroot] at hcount2
    rw [hrw, hErase, root_bones, ← List.countP_eq_length_filter, List.countP_append]
    omega
  · -- no surviving bone carries the sentinel name
    intro b hb
    rw [hrw, hErase] at hb
    rcases List.mem_append.mp hb with hbl1 | hbl2
    · have := hl1 b hbl1
      simp only [Bool.not_eq_true] at this
      exact fun hc => absurd this (by simp [hc])
    · intro hc
      have hxnames : x.name ∉ l2.map EditBone.name := by
        have : ((l1 ++ x :: l2).map EditBone.name).Nodup := by rw [← hMeq]; exact hndM
        rw [List.map_append, List.map_cons] at this
        exact (List.nodup_cons.mp (this.of_append_right)).1
      exact hxnames (by rw [hxname, ← hc]; exact List.mem_map_of_mem EditBone.name hbl2)

theorem remove_root_joint_no_sentinel (bs : List EditBone)
    (hnd : (bs.map EditBone.name).Nodup) :
    ∀ b ∈ remove_root_joint bs, b.name ≠ "_rootJoint" := by
  intro b hb
  rw [remove_root_joint] at hb
  by_cases hany : bs.any (fun b => b.name == "_rootJoint") = true
  · rw [if_pos hany] at hb
    obtain ⟨a, ha, hpa⟩ := List.any_eq_true.mp hany
    have hFa : (reparent_sentinel_child a).name = a.name := (reparent_preserves_fields a).1
    obtain ⟨x, l1, l2, hl1, hpx, hMeq, hErase⟩ :=
      List.exists_of_eraseP (p := fun b => b.name == "_rootJoint")
        (List.mem_map_of_mem reparent_sentinel_child ha)
        (by simp only [hFa]; exact hpa)
    have hxname : x.name = "_rootJoint" := eq_of_beq hpx
    have hnamesM : (bs.map reparent_sentinel_child).map EditBone.name
        = bs.map EditBone.name := by
      rw [List.map_map]
      exact List.map_congr_left fun c _ => (reparent_preserves_fields c).1
    have hndM : ((bs.map reparent_sentinel_child).map EditBone.name).Nodup := by
      rw [hnamesM]; exact hnd
    rw [hErase] at hb
    rcases List.mem_append.mp hb with hbl1 | hbl2
    · have := hl1 b hbl1
      simp only [Bool.not_eq_true] at this
      exact fun hc => absurd this (by simp [hc])
    · intro hc
      have hxnames : x.name ∉ l2.map EditBone.name := by
        have hnodup2 : ((l1 ++ x :: l2).map EditBone.name).Nodup := by
          rw [← hMeq]; exact hndM
        rw [List.map_append, List.map_cons] at hnodup2
        exact (List.nodup_cons.mp hnodup2.of_append_right).1
      exact hxnames (by rw [hxname, ← hc]; exact List.mem_map_of_mem EditBone.name hbl2)
  · rw [if_neg hany] at hb
    intro hc
    exact hany (List.any_eq_true.mpr ⟨b, hb, by simp [hc]⟩)

/-- Identity affine transform. -/
def idAffine : Affine := ⟨(1, 0, 0), (0, 1, 0), (0, 0, 1), (0, 0, 0)⟩

/-- A well-formed imported skeleton whose synthetic "_rootJoint" wrapper
has two direct children. -/
def twoChildArmature : ArmatureObject where
  name := "ybot"
  data_name := "ybot_data"
  parentWorld := none
  matrix_local := idAffine
  edit_bones :=
    [⟨"_rootJoint", none, (0, 0, 0), (0, 1, 0), 0⟩,
     ⟨"Hips", some "_rootJoint", (0, 0, 0), (1, 0, 0), 0⟩,
     ⟨"Tail", some "_rootJoint", (0, 0, 0), (0, 0, 1), 0⟩]

/-- C2 fails as stated: the normalizer reparents every direct child of
"_rootJoint" to root level, so a skeleton whose wrapper joint has two
children (names pairwise distinct, so a legitimate skeleton) comes out
with two root bones, not exactly one. -/
theorem C2_counterexample :
    (twoChildArmature.edit_bones.map EditBone.name).Nodup ∧
    (root_bones (clean_ybot twoChildArmature).edit_bones).length = 2 ∧
    (root_bones (clean_ybot twoChildArmature).edit_bones).length ≠ 1 :=
  ⟨by decide, by decide, by decide⟩

/-- C2 amended: for every imported skeleton with pairwise-distinct bone
names (the data-model invariant), normalization leaves no bone named with
the "_rootJoint" sentinel and no external parent on the root object —
unconditionally; the output has exactly one root bone provided the input's
only root-level bone is the "_rootJoint" wrapper and that wrapper has
exactly one direct child (the Y-Bot shape this script is written for);
in general every direct child of the wrapper becomes a root bone. -/
theorem C2_amended (a : ArmatureObject)
    (hnd : (a.edit_bones.map EditBone.name).Nodup) :
    (∀ b ∈ (clean_ybot a).edit_bones, b.name ≠ "_rootJoint") ∧
    (clean_ybot a).parentWorld = none ∧
    ((root_bones a.edit_bones).map EditBone.name = ["_rootJoint"] →
      (a.edit_bones.filter fun b => b.parent == some "_rootJoint").length = 1 →
      (root_bones (clean_ybot a).edit_bones).length = 1) := by
  refine ⟨?_, clean_ybot_parentWorld a, ?_⟩
  · rw [clean_ybot_edit_bones]
    exact remove_root_joint_no_sentinel a.edit_bones hnd
  · intro hroot hchild
    rw [clean_ybot_edit_bones]
    exact (remove_root_joint_spec a.edit_bones hnd hroot hchild).1

/-- A Y-Bot-shaped sample input: the sole root bone is the synthetic
wrapper with a single child chain, and the armature sits under an external
parent. -/
def ybotSample : ArmatureObject where
  name := "ybot"
  data_name := "ybot_data"
  parentWorld := some ⟨(1, 0, 0), (0, 0, -1), (0, 1, 0), (0, 0, 1)⟩
  matrix_local := ⟨(1, 0, 0), (0, 1, 0), (0, 0, 1), (2, 0, 0)⟩
  edit_bones :=
    [⟨"_rootJoint", none, (0, 0, 0), (0, 1, 0), 0⟩,
     ⟨"mixamorig:Hips_01", some "_rootJoint", (0, 1, 0), (0, 2, 0), 0⟩,
     ⟨"mixamorig:Spine_02", some "mixamorig:Hips_01", (0, 2, 0), (0, 3, 0), 0⟩]

/-- Witness for C2 amended at the Y-Bot-shaped sample armature. -/
theorem C2_amended_witness :
    ((ybotSample.edit_bones.map EditBone.name).Nodup ∧
      (root_bones ybotSample.edit_bones).map EditBone.name = ["_rootJoint"] ∧
      (ybotSample.edit_bones.filter fun b => b.parent == some "_rootJoint").length = 1) ∧
    ((∀ b ∈ (clean_ybot ybotSample).edit_bones, b.name ≠ "_rootJoint") ∧
      (clean_ybot ybotSample).parentWorld = none ∧
      (root_bones (clean_ybot ybotSample).edit_bones).length = 1) :=
  ⟨⟨by decide, by decide, by decide⟩,
    ⟨(C2_amended ybotSample (by decide)).1, (C2_amended ybotSample (by decide)).2.1,
      (C2_amended ybotSample (by decide)).2.2 (by decide) (by decide)⟩⟩

/-- C8: normalization preserves world poses.  The armature's world matrix
is unchanged by `clean_ybot` (the unparent step re-applies the saved world
matrix), and every surviving bone keeps exactly the armature-space rest
data of the input bone with its name — edit-bone reparenting touches only
the parent pointer — so each world-space head/tail equals its pre-clean
value exactly (hence within any tolerance such as 1e-5). -/
theorem C8_world_pose_preserved (a : ArmatureObject) :
    matrix_world (clean_ybot a) = matrix_world a ∧
    ∀ b2 ∈ (clean_ybot a).edit_bones, ∃ b ∈ a.edit_bones,
      b2.name = b.name ∧
      worldHead (clean_ybot a) b2 = worldHead a b ∧
      worldTail (clean_ybot a) b2 = worldTail a b := by
  refine ⟨matrix_world_clean_ybot a, ?_⟩
  intro b2 hb2
  rw [clean_ybot_edit_bones] at hb2
  obtain ⟨b, hb, hn, hh, ht⟩ := mem_remove_root_joint hb2
  exact ⟨b, hb, hn,
    by rw [worldHead, worldHead, matrix_world_clean_ybot, hh],
    by rw [worldTail, worldTail, matrix_world_clean_ybot, ht]⟩

/-- The reparented child of the wrapper joint in `ybotSample`, as it
appears after normalization. -/
def hipsAfter : EditBone :=
  ⟨"mixamorig:Hips_01", none, (0, 1, 0), (0, 2, 0), 0⟩

/-- Witness for C8 at the reparented child of `ybotSample`. -/
theorem C8_witness :
    ∃ b ∈ ybotSample.edit_bones, hipsAfter.name = b.name ∧
      worldHead (clean_ybot ybotSample) hipsAfter = worldHead ybotSample b ∧
      worldTail (clean_ybot ybotSample) hipsAfter = worldTail ybotSample b :=
  (C8_world_pose_preserved ybotSample).2 hipsAfter (by decide)

/-! ## SkinBinding references under the rename pass (`convert_fbx_to_glb.py`) -/

/-- A mesh together with its SkinBinding: Blender vertex groups that
reference skeleton bones by name. -/
structure Mesh where
  name : String
  vertex_groups : List String
deriving DecidableEq

/-- The part of an imported FBX scene the rename pass can see: the
armature's bone names and the meshes skinned to it. -/
structure FbxScene where
  bones : List String
  meshes : List Mesh
deriving DecidableEq

/-- One rename's propagation to SkinBindings, modelled from Blender's
`ED_armature_bone_rename` (run by the `EditBone.name` setter): the vertex
group matching the bone's old name is renamed to the new name on every
mesh deformed by the armature. -/
def rename_vgroups (old new : String) (meshes : List Mesh) : List Mesh :=
  meshes.map fun m =>
    { m with vertex_groups := m.vertex_groups.map fun g => if g == old then new else g }

/-- The rename loop of `rename_bones_to_ybot_format` (lines 104–109) at
scene level: same bone-name evolution as `rename_bones_go`, with each
rename propagated to the meshes' vertex groups. -/
def rename_scene_go : List String → List String → List Mesh → List String × List Mesh
  | _, [], meshes => ([], meshes)
  | prev, n :: rest, meshes =>
    if n ∈ map_keys then
      let n2 := uniquify (prev ++ rest) (translate n)
      let r := rename_scene_go (prev ++ [n2]) rest (rename_vgroups n n2 meshes)
      (n2 :: r.1, r.2)
    else
      let r := rename_scene_go (prev ++ [n]) rest meshes
      (n :: r.1, r.2)

/-- `rename_bones_to_ybot_format` acting on a scene. -/
def rename_bones_scene (s : FbxScene) : FbxScene :=
  ⟨(rename_scene_go [] s.bones s.meshes).1, (rename_scene_go [] s.bones s.meshes).2⟩

/-- The composite substitution the sequential renames apply to one
vertex-group name. -/
def subst_go : List String → List String → String → String
  | _, [], g => g
  | prev, n :: rest, g =>
    if n ∈ map_keys then
      let n2 := uniquify (prev ++ rest) (translate n)
      subst_go (prev ++ [n2]) rest (if g == n then n2 else g)
    else subst_go (prev ++ [n]) rest g

theorem rename_scene_go_fst : ∀ (rest prev : List String) (ms : List Mesh),
    (rename_scene_go prev rest ms).1 = rename_bones_go prev rest := by
  intro rest
  induction rest with
  | nil => intro prev ms; rfl
  | cons n rest ih =>
    intro prev ms
    by_cases hn : n ∈ map_keys
    · simp only [rename_scene_go, rename_bones_go, if_pos hn, ih]
    · simp only [rename_scene_go, rename_bones_go, if_neg hn, ih]

theorem rename_scene_go_snd : ∀ (rest prev : List String) (ms : List Mesh),
    (rename_scene_go prev rest ms).2 =
      ms.map fun m => ⟨m.name, m.vertex_groups.map (subst_go prev rest)⟩ := by
  intro rest
  induction rest with
  | nil =>
    intro prev ms
    simp only [rename_scene_go, subst_go]
    have : ∀ m : Mesh, (⟨m.name, m.vertex_groups.map fun g => g⟩ : Mesh) = m := by
      intro m; simp
    simp [this]
  | cons n rest ih =>
    intro prev ms
    by_cases hn : n ∈ map_keys
    · simp only [rename_scene_go, if_pos hn, ih, rename_vgroups, List.map_map]
      refine List.map_congr_left fun m _ => ?_
      simp only [Function.comp_apply, List.map_map]
      refine congrArg _ (List.map_congr_left fun g _ => ?_)
      simp only [Function.comp_apply, subst_go, if_pos hn]
    · simp only [rename_scene_go, if_neg hn, ih]
      refine List.map_congr_left fun m _ => ?_
      refine congrArg _ (List.map_congr_left fun g _ => ?_)
      simp only [subst_go, if_neg hn]

theorem subst_go_not_key : ∀ (rest prev : List String) (g : String),
    g ∉ map_keys → subst_go prev rest g = g := by
  intro rest
  induction rest with
  | nil => intro prev g _; rfl
  | cons n rest ih =>
    intro prev g hg
    by_cases hn : n ∈ map_keys
    · have hgn : (g == n) = false := beq_eq_false_iff_ne.mpr fun he => hg (he ▸ hn)
      simp only [subst_go, if_pos hn, hgn, Bool.false_eq_true, if_false]
      exact ih _ g hg
    · simp only [subst_go, if_neg hn]
      exact ih _ g hg

theorem subst_go_keep_or_shed : ∀ (rest prev : List String) (g : String),
    subst_go prev rest g = g ∨ subst_go prev rest g ∉ map_keys := by
  intro rest
  induction rest with
  | nil => intro prev g; exact Or.inl rfl
  | cons n rest ih =>
    intro prev g
    by_cases hn : n ∈ map_keys
    · by_cases hgn : g = n
      · subst hgn
        have hnk := uniquify_not_key (prev ++ rest) (translate_not_key hn)
        refine Or.inr ?_
        simp only [subst_go, if_pos hn, beq_self_eq_true, if_true]
        rw [subst_go_not_key _ _ _ hnk]
        exact hnk
      · have hb : (g == n) = false := beq_eq_false_iff_ne.mpr hgn
        simp only [subst_go, if_pos hn, hb]
        exact ih _ g
    · simp only [subst_go, if_neg hn]
      exact ih _ g

theorem subst_go_key : ∀ (rest prev : List String) (old : String),
    (prev ++ rest).Nodup → old ∈ rest → old ∈ map_keys →
    subst_go prev rest old ∈ rename_bones_go prev rest ∧
      subst_go prev rest old ∉ map_keys := by
  intro rest
  induction rest with
  | nil => intro prev old _ hmem _; cases hmem
  | cons n rest ih =>
    intro prev old hnd hmem hkey
    have hmid := List.nodup_cons.mp (List.nodup_middle.mp hnd)
    by_cases hn : n ∈ map_keys
    · by_cases hon : old = n
      · subst hon
        have hnk := uniquify_not_key (prev ++ rest) (translate_not_key hn)
        simp only [subst_go, rename_bones_go, if_pos hn, beq_self_eq_true, if_true]
        rw [subst_go_not_key _ _ _ hnk]
        exact ⟨List.mem_cons_self _ _, hnk⟩
      · have hb : (old == n) = false := beq_eq_false_iff_ne.mpr hon
        have hor : old ∈ rest := by
          rcases List.mem_cons.mp hmem with h | h
          · exact absurd h hon
          · exact h
        have hfresh := uniquify_not_mem (prev ++ rest) (translate n)
        have hnext : ((prev ++ [uniquify (prev ++ rest) (translate n)]) ++ rest).Nodup := by
          rw [List.append_assoc, List.singleton_append]
          exact List.nodup_middle.mpr (List.nodup_cons.mpr ⟨hfresh, hmid.2⟩)
        obtain ⟨h1, h2⟩ := ih (prev ++ [uniquify (prev ++ rest) (translate n)]) old hnext hor hkey
        simp only [subst_go, rename_bones_go, if_pos hn, hb]
        exact ⟨List.mem_cons_of_mem _ h1, h2⟩
    · have hor : old ∈ rest := by
        rcases List.mem_cons.mp hmem with h | h
        · exact absurd (h ▸ hkey) hn
        · exact h
      have hnext : ((prev ++ [n]) ++ rest).Nodup := by
        rw [List.append_assoc, List.singleton_append]
        exact hnd
      obtain ⟨h1, h2⟩ := ih (prev ++ [n]) old hnext hor hkey
      simp only [subst_go, rename_bones_go, if_neg hn]
      exact ⟨List.mem_cons_of_mem _ h1, h2⟩

/-! ## Clip Importer / Clip Merger / Batch Driver (`merge_animations.py`) -/

/-- What the filesystem and the FBX import yield for one motion source:
whether the file exists (`os.path.exists`, line 52), whether the imported
armature carries an active action (line 68), and that action's first
frame (line 86). -/
structure SourceInfo where
  fileExists : Bool
  hasAction : Bool
  frame_start : Int
deriving DecidableEq

/-- One NLA track-slot created on the base armature (lines 84–87). -/
structure NlaTrack where
  name : String
  strip_name : String
  strip_start : Int
deriving DecidableEq

/-- The way a merge job fails: no armature in the base asset
(lines 40–42). -/
inductive MergeError where
  | missingSkeleton
deriving DecidableEq

/-- The exported merged asset: the created NLA tracks, the active action
left on the armature, and the sources skipped because their file was
missing. -/
structure MergedOutput where
  tracks : List NlaTrack
  active_action : Option String
  skipped : List String
deriving DecidableEq

/-- Lines 50–76: iterate the clip list in order; a missing file is skipped
(lines 52–54); otherwise the imported armature's action — when present —
is renamed to the requested clip name and collected together with its
first frame. -/
def collect_actions (env : String → SourceInfo) (files : List (String × String)) :
    List (String × Int) :=
  files.filterMap fun fa =>
    if (env fa.1).fileExists && (env fa.1).hasAction then
      some (fa.2, (env fa.1).frame_start)
    else none

/-- Lines 52–54: the sources reported as "Skipping (not found)". -/
def skipped_sources (env : String → SourceInfo) (files : List (String × String)) :
    List String :=
  files.filterMap fun fa => if (env fa.1).fileExists then none else some fa.1

/-- Lines 83–88 (the Clip Merger): push each collected action, in list
order, onto a fresh NLA track named after the action, with its strip
starting at the action's own first frame. -/
def push_nla_tracks (acts : List (String × Int)) : List NlaTrack :=
  acts.map fun a => ⟨a.1, a.1, a.2⟩

/-- Lines 90–92: the first collected action becomes the armature's active
action; with no collected actions the armature keeps its prior action. -/
def set_active_action (baseAction : Option String) (acts : List (String × Int)) :
    Option String :=
  match acts with
  | [] => baseAction
  | a :: _ => some a.1

/-- `merge_animations_into_model` (lines 23–109): with no armature in the
base asset the function returns early and nothing is exported
(lines 40–42); otherwise the collected actions are pushed as NLA tracks in
order, the first becomes active, and the scene is exported. -/
def merge_animations_into_model (baseHasArmature : Bool) (baseAction : Option String)
    (env : String → SourceInfo) (files : List (String × String)) :
    Except MergeError MergedOutput :=
  if baseHasArmature then
    let acts := collect_actions env files
    .ok ⟨push_nla_tracks acts, set_active_action baseAction acts, skipped_sources env files⟩
  else .error .missingSkeleton

/-- One conversion job: whether the base asset contains an armature, the
armature's prior active action, and the ordered clip list. -/
structure Job where
  baseHasArmature : Bool
  baseAction : Option String
  files : List (String × String)

/-- Modelled from the spec: the Batch Driver of spec §4.5 (an ordered
worklist with continue-on-error) is not in the repository for merge jobs —
`merge_animations.py` runs one hard-coded job — so the driver is modelled
as independent per-job runs, mirroring the per-file loop of
`convert_fbx_to_glb.py` (lines 169–179); `merge_animations_into_model`
returns instead of raising on a missing skeleton, so no job can abort the
batch. -/
def run_batch (env : String → SourceInfo) (jobs : List Job) :
    List (Except MergeError MergedOutput) :=
  jobs.map fun j =>
    merge_animations_into_model j.baseHasArmature j.baseAction env j.files

/-- Kind of a Blender scene object. -/
inductive ObjType where
  | armatureT
  | meshT
  | otherT
deriving DecidableEq

/-- An object added to the scene by one motion-source FBX import. -/
structure ImportedObject where
  name : String
  objType : ObjType
  hasAction : Bool
deriving DecidableEq

/-- Lines 66–76: scan the scene for an armature other than the base one;
record its action, remove that object alone (`bpy.data.objects.remove`),
and `break`. -/
def remove_imported_armature (objs : List ImportedObject) : List ImportedObject :=
  objs.eraseP fun o => o.objType == ObjType.armatureT

theorem collect_actions_all (env : String → SourceInfo) (files : List (String × String))
    (hall : ∀ f ∈ files, (env f.1).fileExists = true ∧ (env f.1).hasAction = true) :
    collect_actions env files = files.map fun fa => (fa.2, (env fa.1).frame_start) := by
  induction files with
  | nil => rfl
  | cons f fs ih =>
    have h := hall f (List.mem_cons_self f fs)
    simp only [collect_actions, List.filterMap_cons, h.1, h.2, Bool.and_self, if_true,
      List.map_cons]
    exact congrArg _ (ih fun g hg => hall g (List.mem_cons_of_mem f hg))

theorem skipped_sources_all_present (env : String → SourceInfo)
    (files : List (String × String))
    (hall : ∀ f ∈ files, (env f.1).fileExists = true) :
    skipped_sources env files = [] := by
  induction files with
  | nil => rfl
  | cons f fs ih =>
    simp only [skipped_sources, List.filterMap_cons, hall f (List.mem_cons_self f fs), if_true]
    exact ih fun g hg => hall g (List.mem_cons_of_mem f hg)

/-- C1: when the base asset has a skeleton and every listed motion source
is present and carries an action, the NLA tracks created on the armature
follow the clip list order exactly, the first clip of the list becomes the
armature's active (default) clip, and nothing is skipped. -/
theorem C1_track_order (baseAction : Option String) (env : String → SourceInfo)
    (files : List (String × String)) (hne : files ≠ [])
    (hall : ∀ f ∈ files, (env f.1).fileExists = true ∧ (env f.1).hasAction = true) :
    ∃ out, merge_animations_into_model true baseAction env files = .ok out ∧
      out.tracks.map NlaTrack.name = files.map Prod.snd ∧
      out.active_action = (files.map Prod.snd).head? ∧
      out.skipped = [] := by
  refine ⟨_, rfl, ?_, ?_, ?_⟩
  · rw [collect_actions_all env files hall]
    simp [push_nla_tracks, List.map_map]
  · rw [collect_actions_all env files hall]
    cases files with
    | nil => exact absurd rfl hne
    | cons f fs => rfl
  · exact skipped_sources_all_present env files fun f hf => (hall f hf).1

/-- Witness for C1 at the clip list of the spec's example, with every
source present. -/
theorem C1_witness :
    ((([("a.src", "Idle"), ("b.src", "Walk"), ("c.src", "Run")] : List (String × String)) ≠ []) ∧
      ∀ f ∈ ([("a.src", "Idle"), ("b.src", "Walk"), ("c.src", "Run")] : List (String × String)),
        ((fun _ => (⟨true, true, 0⟩ : SourceInfo)) f.1).fileExists = true ∧
          ((fun _ => (⟨true, true, 0⟩ : SourceInfo)) f.1).hasAction = true) ∧
    ∃ out, merge_animations_into_model true none (fun _ => ⟨true, true, 0⟩)
        [("a.src", "Idle"), ("b.src", "Walk"), ("c.src", "Run")] = .ok out ∧
      out.tracks.map NlaTrack.name =
        ([("a.src", "Idle"), ("b.src", "Walk"), ("c.src", "Run")] :
          List (String × String)).map Prod.snd ∧
      out.active_action =
        (([("a.src", "Idle"), ("b.src", "Walk"), ("c.src", "Run")] :
          List (String × String)).map Prod.snd).head? ∧
      out.skipped = [] :=
  ⟨⟨by decide, by decide⟩,
    C1_track_order none (fun _ => ⟨true, true, 0⟩)
      [("a.src", "Idle"), ("b.src", "Walk"), ("c.src", "Run")] (by decide) (by decide)⟩

/-- C5: with the middle source of a three-item clip list missing, that
source is skipped, the remaining clips appear as tracks in their original
relative order, the first surviving clip becomes active, and the merge
still succeeds (the job exports; only a skip is reported). -/
theorem C5_missing_source_skipped (baseAction : Option String) (env : String → SourceInfo)
    (fa fb fc na nb nc : String)
    (hfa : (env fa).fileExists = true) (hfaA : (env fa).hasAction = true)
    (hfb : (env fb).fileExists = false)
    (hfc : (env fc).fileExists = true) (hfcA : (env fc).hasAction = true) :
    merge_animations_into_model true baseAction env [(fa, na), (fb, nb), (fc, nc)] =
      .ok ⟨[⟨na, na, (env fa).frame_start⟩, ⟨nc, nc, (env fc).frame_start⟩],
        some na, [fb]⟩ := by
  simp [merge_animations_into_model, collect_actions, skipped_sources, push_nla_tracks,
    set_active_action, hfa, hfaA, hfb, hfc, hfcA]

/-- Witness for C5 at the spec's example, with "b.src" missing. -/
theorem C5_witness :
    (((fun s => if s == "b.src" then (⟨false, false, 0⟩ : SourceInfo)
        else ⟨true, true, 0⟩) "a.src").fileExists = true) ∧
    merge_animations_into_model true none
        (fun s => if s == "b.src" then (⟨false, false, 0⟩ : SourceInfo) else ⟨true, true, 0⟩)
        [("a.src", "Idle"), ("b.src", "Walk"), ("c.src", "Run")] =
      .ok ⟨[⟨"Idle", "Idle", 0⟩, ⟨"Run", "Run", 0⟩], some "Idle", ["b.src"]⟩ :=
  ⟨by decide,
    C5_missing_source_skipped none
      (fun s => if s == "b.src" then (⟨false, false, 0⟩ : SourceInfo) else ⟨true, true, 0⟩)
      "a.src" "b.src" "c.src" "Idle" "Walk" "Run"
      (by decide) (by decide) (by decide) (by decide) (by decide)⟩

/-- A scene in which the armature has the Mixamo-standard hip bone and a
mesh is skinned to it through a vertex group of the same name. -/
def hipsScene : FbxScene :=
  ⟨["mixamorig:Hips"], [⟨"Body", ["mixamorig:Hips"]⟩]⟩

/-- C7: applying the rename pass to a scene rewrites every name-based
reference to a renamed bone: for every bone whose name is a table key, the
bone gets a new (non-key) name among the output skeleton's bones, and on
every mesh the SkinBinding vertex group keyed on the old name now carries
the new name, the old name appearing in no vertex group — the
`EditBone.name` setter propagates each rename to the deforming meshes'
vertex groups (`ED_armature_bone_rename`). -/
theorem C7_skin_rename (s : FbxScene) (hnd : s.bones.Nodup) :
    ∀ old ∈ s.bones, old ∈ map_keys →
      ∃ new ∈ (rename_bones_scene s).bones, new ∉ map_keys ∧
        ∀ m ∈ s.meshes, ∃ m2 ∈ (rename_bones_scene s).meshes, m2.name = m.name ∧
          (old ∈ m.vertex_groups → new ∈ m2.vertex_groups) ∧
          old ∉ m2.vertex_groups := by
  intro old hold hkey
  obtain ⟨hmem, hnk⟩ := subst_go_key s.bones [] old (by simpa using hnd) hold hkey
  refine ⟨subst_go [] s.bones old, ?_, hnk, ?_⟩
  · show subst_go [] s.bones old ∈ (rename_scene_go [] s.bones s.meshes).1
    rw [rename_scene_go_fst]
    exact hmem
  · intro m hm
    refine ⟨⟨m.name, m.vertex_groups.map (subst_go [] s.bones)⟩, ?_, rfl, ?_, ?_⟩
    · show _ ∈ (rename_scene_go [] s.bones s.meshes).2
      rw [rename_scene_go_snd]
      exact List.mem_map_of_mem _ hm
    · intro hovg
      exact List.mem_map_of_mem _ hovg
    · intro hco
      obtain ⟨g, hg, hgeq⟩ := List.mem_map.mp hco
      by_cases hgold : g = old
      · subst hgold
        exact hnk (by rw [hgeq]; exact hkey)
      · rcases subst_go_keep_or_shed s.bones [] g with heq | hnk2
        · exact hgold (heq ▸ hgeq)
        · exact hnk2 (by rw [hgeq]; exact hkey)

/-- Witness for C7 at `hipsScene`: the hip bone is renamed and the Body
mesh's vertex group follows it. -/
theorem C7_witness :
    (hipsScene.bones.Nodup ∧ "mixamorig:Hips" ∈ hipsScene.bones ∧
      "mixamorig:Hips" ∈ map_keys) ∧
    ∃ new ∈ (rename_bones_scene hipsScene).bones, new ∉ map_keys ∧
      ∀ m ∈ hipsScene.meshes, ∃ m2 ∈ (rename_bones_scene hipsScene).meshes,
        m2.name = m.name ∧
        ("mixamorig:Hips" ∈ m.vertex_groups → new ∈ m2.vertex_groups) ∧
        "mixamorig:Hips" ∉ m2.vertex_groups :=
  ⟨⟨by decide, by decide, by decide⟩,
    C7_skin_rename hipsScene (by decide) "mixamorig:Hips" (by decide) (by decide)⟩

/-- The propagation traced concretely: the hip bone becomes
"mixamorig:Hips_01" and so does the Body mesh's vertex group. -/
theorem rename_scene_example :
    rename_bones_scene hipsScene =
      ⟨["mixamorig:Hips_01"], [⟨"Body", ["mixamorig:Hips_01"]⟩]⟩ := by decide

/-- The objects added by importing a motion source that carries both an
armature and skinned mesh geometry. -/
def importedWithMesh : List ImportedObject :=
  [⟨"Armature.001", ObjType.armatureT, true⟩, ⟨"Body.001", ObjType.meshT, false⟩]

/-- C9 fails as stated: after clip extraction, only the imported armature
object is removed; the mesh geometry introduced by the same import
survives in the scene (and is then selected for export at line 95). -/
theorem C9_counterexample :
    remove_imported_armature importedWithMesh =
      [⟨"Body.001", ObjType.meshT, false⟩] ∧
    remove_imported_armature importedWithMesh ≠ [] :=
  ⟨by decide, by decide⟩

theorem filter_not_eraseP {α : Type} (p : α → Bool) (l : List α) :
    (l.eraseP p).filter (fun o => !(p o)) = l.filter (fun o => !(p o)) := by
  induction l with
  | nil => rfl
  | cons x xs ih =>
    cases hx : p x
    · simp [List.eraseP_cons, hx, List.filter_cons, ih]
    · simp [List.eraseP_cons, hx, List.filter_cons]

/-- C9 amended: the per-source cleanup removes exactly one armature object
(the first one found); every non-armature object introduced by the import
— mesh geometry included — survives into the scene that is exported. -/
theorem C9_amended (objs : List ImportedObject) :
    (remove_imported_armature objs).filter (fun o => !(o.objType == ObjType.armatureT)) =
      objs.filter (fun o => !(o.objType == ObjType.armatureT)) ∧
    ((objs.any fun o => o.objType == ObjType.armatureT) = true →
      (remove_imported_armature objs).countP (fun o => o.objType == ObjType.armatureT) =
        objs.countP (fun o => o.objType == ObjType.armatureT) - 1) := by
  constructor
  · exact filter_not_eraseP _ objs
  · intro hany
    obtain ⟨a, ha, hpa⟩ := List.any_eq_true.mp hany
    obtain ⟨x, l1, l2, hl1, hpx, hleq, herase⟩ :=
      List.exists_of_eraseP (p := fun o => o.objType == ObjType.armatureT) ha hpa
    have hc1 : l1.countP (fun o => o.objType == ObjType.armatureT) = 0 :=
      List.countP_eq_zero.mpr hl1
    rw [remove_imported_armature, herase, List.countP_append, hleq, List.countP_append,
      List.countP_cons_of_pos (p := fun o => o.objType == ObjType.armatureT) l2
        (by simpa using hpx), hc1]
    omega

/-- Witness for C9 amended at the two-object import. -/
theorem C9_amended_witness :
    (remove_imported_armature importedWithMesh).countP
        (fun o => o.objType == ObjType.armatureT) =
      importedWithMesh.countP (fun o => o.objType == ObjType.armatureT) - 1 :=
  (C9_amended importedWithMesh).2 (by decide)

/-- C6: a job whose base asset contains no skeleton produces the
missing-skeleton failure — the function returns before reaching the export
call, so no output is written for it (the failure result carries no
`MergedOutput` at all) — and every job in the batch, later ones included,
still runs to its own, independent result. -/
theorem C6_missing_skeleton_batch (env : String → SourceInfo) (jobs : List Job)
    (i : Nat) (hi : i < jobs.length) (hi2 : i < (run_batch env jobs).length)
    (hno : (jobs.get ⟨i, hi⟩).baseHasArmature = false) :
    (run_batch env jobs).get ⟨i, hi2⟩ = .error .missingSkeleton ∧
    ∀ j (hj : j < jobs.length) (hj2 : j < (run_batch env jobs).length),
      (run_batch env jobs).get ⟨j, hj2⟩ =
        merge_animations_into_model (jobs.get ⟨j, hj⟩).baseHasArmature
          (jobs.get ⟨j, hj⟩).baseAction env (jobs.get ⟨j, hj⟩).files := by
  have hget : ∀ j (hj : j < jobs.length) (hj2 : j < (run_batch env jobs).length),
      (run_batch env jobs).get ⟨j, hj2⟩ =
        merge_animations_into_model (jobs.get ⟨j, hj⟩).baseHasArmature
          (jobs.get ⟨j, hj⟩).baseAction env (jobs.get ⟨j, hj⟩).files := by
    intro j hj hj2
    simp only [run_batch, List.get_eq_getElem, List.getElem_map]
  refine ⟨?_, hget⟩
  rw [hget i hi hi2, hno]
  rfl

/-- The environment and two-job worklist used to witness C6: the first
job's base asset has no armature, the second is a normal job. -/
def envW : String → SourceInfo := fun _ => ⟨true, true, 0⟩

def jobsW : List Job :=
  [⟨false, none, [("a.src", "Idle")]⟩, ⟨true, none, [("a.src", "Idle")]⟩]

/-- Witness for C6 at a concrete two-job batch whose first job lacks a
skeleton. -/
theorem C6_witness :
    ((jobsW.get ⟨0, by decide⟩).baseHasArmature = false) ∧
    ((run_batch envW jobsW).get ⟨0, by decide⟩ = .error .missingSkeleton ∧
      ∀ j (hj : j < jobsW.length) (hj2 : j < (run_batch envW jobsW).length),
        (run_batch envW jobsW).get ⟨j, hj2⟩ =
          merge_animations_into_model (jobsW.get ⟨j, hj⟩).baseHasArmature
            (jobsW.get ⟨j, hj⟩).baseAction envW (jobsW.get ⟨j, hj⟩).files) :=
  ⟨by decide, C6_missing_skeleton_batch envW jobsW 0 (by decide) (by decide) (by decide)⟩

end Eustress







